import Mathlib

/-!
Shallow embedding of the conversation-aggregation and meeting-status logic of
the bni-discovery application, together with theorems settling the
specification's claims about it.

The embedded code:
* `fetchConversations` and its pieces, from the `MessagesScreen` component in
  src/app/(tabs)/messages.tsx (the grouping loop, the batch profile lookup and
  the final sort);
* `updateMeetingStatusWrite` / `offeredStatusActions`, from the
  `ScheduleScreen` component in src/app/(tabs)/schedule.tsx.

Conventions of the embedding:
* `created_at` strings are represented by their parsed timestamps
  (`new Date(s).getTime()`) as natural numbers, which is all the code ever
  does with them;
* message ids that may be `null`/`undefined` at runtime are `Option String`
  (the TypeScript declaration says `string`, but nothing enforces it at
  runtime and one claim is precisely about missing ids);
* a store response is its `{ data, error }` shape (`StoreResult`);
* the JavaScript `Map` keyed by counterparty id is a list of `Conversation`
  values in insertion order, which is exactly the order `Map` iteration and
  `Array.from(map.values())` deliver;
* `Array.prototype.sort`, a stable comparison sort, is modelled by a stable
  insertion sort over the translated comparator.
-/

namespace BniDiscovery

/-- A profile row (src/types/database.ts, `UserProfile`); only `id` is ever
inspected by the aggregation logic. -/
structure UserProfile where
  id : String
  deriving DecidableEq

/-- A message row as returned by the messages query in
src/app/(tabs)/messages.tsx (src/types/database.ts, `Message`), with the
foreign-key-expanded `sender_profile` attached. -/
structure Message where
  id : String
  sender_id : Option String
  receiver_id : Option String
  content : String
  read : Bool
  created_at : Nat
  sender_profile : Option UserProfile
  deriving DecidableEq

/-- The derived `Conversation` record of src/app/(tabs)/messages.tsx. -/
structure Conversation where
  otherUserId : Option String
  otherUserProfile : Option UserProfile
  lastMessage : Option Message
  unreadCount : Nat
  deriving DecidableEq

/-- The counterparty id of a message
(`message.sender_id === user.id ? message.receiver_id : message.sender_id`,
messages.tsx line 73). -/
def counterparty (u : String) (m : Message) : Option String :=
  if m.sender_id = some u then m.receiver_id else m.sender_id

/-- The `Conversation` created when a counterparty key is first seen
(messages.tsx lines 76-81): the profile is taken from this first message
only, and only when the current user is not its sender. -/
def initConv (u : String) (k : Option String) (m : Message) : Conversation :=
  { otherUserId := k
    otherUserProfile := if m.sender_id ≠ some u then m.sender_profile else none
    lastMessage := some m
    unreadCount := 0 }

/-- The last-message update of the grouping loop (messages.tsx lines 86-89):
replace `lastMessage` only on a strictly greater timestamp. -/
def updateLast (m : Message) (c : Conversation) : Conversation :=
  match c.lastMessage with
  | none => { c with lastMessage := some m }
  | some lm =>
    if lm.created_at < m.created_at then { c with lastMessage := some m } else c

/-- Whether a message counts as unread for the current user
(`message.receiver_id === user.id && !message.read`, messages.tsx line 92). -/
def isUnread (u : String) (m : Message) : Bool :=
  m.receiver_id == some u && !m.read

/-- The unread-count update of the grouping loop (messages.tsx lines 91-94). -/
def bumpUnread (u : String) (m : Message) (c : Conversation) : Conversation :=
  if isUnread u m then { c with unreadCount := c.unreadCount + 1 } else c

/-- The whole per-message update of an existing conversation entry
(messages.tsx lines 84-94): last-message update, then unread count. -/
def updateConv (u : String) (m : Message) (c : Conversation) : Conversation :=
  bumpUnread u m (updateLast m c)

/-- One iteration of the grouping `forEach` (messages.tsx lines 72-95) on the
insertion-ordered conversation map. -/
def step (u : String) (acc : List Conversation) (m : Message) : List Conversation :=
  (if acc.any (fun c => c.otherUserId == counterparty u m) then acc
   else acc ++ [initConv u (counterparty u m) m]).map
    (fun c => if c.otherUserId = counterparty u m then updateConv u m c else c)

/-- The grouping loop of `fetchConversations` (messages.tsx lines 70-95):
fold the per-message step over the input list, starting from an empty map. -/
def groupMessages (u : String) (msgs : List Message) : List Conversation :=
  msgs.foldl (step u) []

/-- The counterparty ids the batch profile lookup is keyed by
(messages.tsx lines 98-102): the `otherUserId` of every conversation whose
captured profile is absent. -/
def batchLookupIds (u : String) (msgs : List Message) : List (Option String) :=
  ((groupMessages u msgs).filter (fun c => c.otherUserProfile.isNone)).map
    (fun c => c.otherUserId)

/-- Resolution of a missing profile from the batch lookup's `data`
(messages.tsx lines 108-110): `profiles?.find(p => p.id === conv.otherUserId)`,
assigned even when the find comes back empty. -/
def resolveProfile (profilesData : Option (List UserProfile)) (c : Conversation) :
    Conversation :=
  if c.otherUserProfile.isNone then
    { c with otherUserProfile :=
        profilesData.bind (fun ps => ps.find? (fun p => c.otherUserId == some p.id)) }
  else c

/-- The sort comparator of messages.tsx lines 114-117: `0` when either side
lacks a last message, otherwise the timestamp difference `b - a`. -/
def convCompare (a b : Conversation) : Int :=
  match a.lastMessage, b.lastMessage with
  | some ma, some mb => (mb.created_at : Int) - (ma.created_at : Int)
  | _, _ => 0

/-- Stable insertion of a conversation into a sorted list under the source
comparator: `a` goes before the first element it does not compare after. -/
def insertConv (a : Conversation) : List Conversation → List Conversation
  | [] => [a]
  | b :: bs => if convCompare a b ≤ 0 then a :: b :: bs else b :: insertConv a bs

/-- Model of `Array.prototype.sort` with the source comparator: a stable
comparison sort. -/
def sortConvs : List Conversation → List Conversation
  | [] => []
  | a :: rest => insertConv a (sortConvs rest)

/-- The `{ data, error }` shape every store query resolves with. -/
structure StoreResult (α : Type) where
  data : Option α
  error : Option String
  deriving DecidableEq

/-- The body of `fetchConversations` (messages.tsx lines 52-125) as a function
of the current user id and the two store responses it consumes. The result is
`some list` when `setConversations list` runs, and `none` when the thrown
message-query error is caught and the previously held state is kept. The
messages response's `error` is checked and thrown; the profile response is
destructured to `data` only, its `error` never inspected. -/
def fetchConversations (u : String) (msgRes : StoreResult (List Message))
    (profRes : StoreResult (List UserProfile)) : Option (List Conversation) :=
  match msgRes.error with
  | some _ => none
  | none =>
    let messages := msgRes.data.getD []
    let convs := groupMessages u messages
    let withP :=
      if 0 < (convs.filter (fun c => c.otherUserProfile.isNone)).length then
        convs.map (resolveProfile profRes.data)
      else convs
    some (sortConvs withP)

/-! ### Reference recomputation of the grouping loop

The fold above is proved equal to a per-partition recomputation
(`convsOf`), from which the per-claim properties follow. -/

/-- Append a key to an accumulator unless already present: one step of
first-occurrence deduplication. -/
def insertKey (ks : List (Option String)) (k : Option String) : List (Option String) :=
  if k ∈ ks then ks else ks ++ [k]

/-- The distinct elements of a list in order of first occurrence. -/
def firstDedup (l : List (Option String)) : List (Option String) :=
  l.foldl insertKey []

/-- The larger-timestamp choice made by the last-message update, with the
incumbent winning ties. -/
def maxStep (b x : Message) : Message :=
  if b.created_at < x.created_at then x else b

/-- Fold the per-message update over a list of messages. -/
def applyMsgs (u : String) (c : Conversation) (ms : List Message) : Conversation :=
  ms.foldl (fun c x => updateConv u x c) c

/-- The conversation the grouping loop builds for key `k` from the partition
`l` of messages with that counterparty, processed in order. -/
def buildConv (u : String) (k : Option String) : List Message → Conversation
  | [] => { otherUserId := k, otherUserProfile := none, lastMessage := none, unreadCount := 0 }
  | m :: ms => applyMsgs u (updateConv u m (initConv u k m)) ms

/-- Per-partition recomputation of the whole grouping loop. -/
def convsOf (u : String) (msgs : List Message) : List Conversation :=
  (firstDedup (msgs.map (counterparty u))).map
    (fun k => buildConv u k (msgs.filter (fun m => counterparty u m == k)))

/-- The profile the grouping loop captures for a partition: the first
message's attached profile when its sender is not the current user. -/
def firstProfile (u : String) : List Message → Option UserProfile
  | [] => none
  | m :: _ => if m.sender_id ≠ some u then m.sender_profile else none

/-! ### Meeting status mutation (src/app/(tabs)/schedule.tsx) -/

/-- The meeting status domain (src/types/database.ts, `Meeting.status`). -/
inductive MeetingStatus where
  | pending
  | confirmed
  | cancelled
  | completed
  deriving DecidableEq

/-- The parameter domain of `updateMeetingStatus`
(schedule.tsx line 66: `status: 'confirmed' | 'cancelled'`). -/
inductive UpdatableStatus where
  | confirmed
  | cancelled
  deriving DecidableEq

/-- The status value `updateMeetingStatus` writes to the meetings table
(schedule.tsx lines 68-71: `.update({ status })`). -/
def updateMeetingStatusWrite : UpdatableStatus → MeetingStatus
  | .confirmed => .confirmed
  | .cancelled => .cancelled

/-- The status arguments the schedule screen ever passes to
`updateMeetingStatus`: the confirm/cancel buttons rendered only when
`meeting.status === 'pending'` (schedule.tsx lines 237-252). -/
def offeredStatusActions (s : MeetingStatus) : List UpdatableStatus :=
  if s = .pending then [.confirmed, .cancelled] else []

/-! ### Field-preservation lemmas for the per-message update -/

lemma updateLast_otherUserId (m : Message) (c : Conversation) :
    (updateLast m c).otherUserId = c.otherUserId := by
  unfold updateLast
  cases c.lastMessage
  · rfl
  · dsimp only
    split <;> rfl

lemma updateLast_otherUserProfile (m : Message) (c : Conversation) :
    (updateLast m c).otherUserProfile = c.otherUserProfile := by
  unfold updateLast
  cases c.lastMessage
  · rfl
  · dsimp only
    split <;> rfl

lemma updateLast_unreadCount (m : Message) (c : Conversation) :
    (updateLast m c).unreadCount = c.unreadCount := by
  unfold updateLast
  cases c.lastMessage
  · rfl
  · dsimp only
    split <;> rfl

lemma updateLast_lastMessage (m b : Message) (c : Conversation)
    (h : c.lastMessage = some b) :
    (updateLast m c).lastMessage = some (maxStep b m) := by
  unfold updateLast maxStep
  rw [h]
  dsimp only
  split <;> simp [h]

lemma bumpUnread_otherUserId (u : String) (m : Message) (c : Conversation) :
    (bumpUnread u m c).otherUserId = c.otherUserId := by
  unfold bumpUnread
  split <;> rfl

lemma bumpUnread_otherUserProfile (u : String) (m : Message) (c : Conversation) :
    (bumpUnread u m c).otherUserProfile = c.otherUserProfile := by
  unfold bumpUnread
  split <;> rfl

lemma bumpUnread_lastMessage (u : String) (m : Message) (c : Conversation) :
    (bumpUnread u m c).lastMessage = c.lastMessage := by
  unfold bumpUnread
  split <;> rfl

lemma bumpUnread_unreadCount (u : String) (m : Message) (c : Conversation) :
    (bumpUnread u m c).unreadCount =
      c.unreadCount + (if isUnread u m then 1 else 0) := by
  unfold bumpUnread
  split <;> simp [*]

lemma updateConv_otherUserId (u : String) (m : Message) (c : Conversation) :
    (updateConv u m c).otherUserId = c.otherUserId := by
  unfold updateConv
  rw [bumpUnread_otherUserId, updateLast_otherUserId]

lemma updateConv_otherUserProfile (u : String) (m : Message) (c : Conversation) :
    (updateConv u m c).otherUserProfile = c.otherUserProfile := by
  unfold updateConv
  rw [bumpUnread_otherUserProfile, updateLast_otherUserProfile]

lemma updateConv_lastMessage (u : String) (m b : Message) (c : Conversation)
    (h : c.lastMessage = some b) :
    (updateConv u m c).lastMessage = some (maxStep b m) := by
  unfold updateConv
  rw [bumpUnread_lastMessage, updateLast_lastMessage m b c h]

lemma updateConv_unreadCount (u : String) (m : Message) (c : Conversation) :
    (updateConv u m c).unreadCount =
      c.unreadCount + (if isUnread u m then 1 else 0) := by
  unfold updateConv
  rw [bumpUnread_unreadCount, updateLast_unreadCount]

/-! ### The fold over a partition -/

lemma applyMsgs_nil (u : String) (c : Conversation) : applyMsgs u c [] = c := rfl

lemma applyMsgs_cons (u : String) (c : Conversation) (x : Message) (ms : List Message) :
    applyMsgs u c (x :: ms) = applyMsgs u (updateConv u x c) ms := rfl

lemma applyMsgs_append (u : String) (c : Conversation) (l l' : List Message) :
    applyMsgs u c (l ++ l') = applyMsgs u (applyMsgs u c l) l' := by
  unfold applyMsgs
  exact List.foldl_append ..

lemma applyMsgs_otherUserId (u : String) (c : Conversation) (ms : List Message) :
    (applyMsgs u c ms).otherUserId = c.otherUserId := by
  induction ms generalizing c with
  | nil => rfl
  | cons x ms ih => rw [applyMsgs_cons, ih, updateConv_otherUserId]

lemma applyMsgs_otherUserProfile (u : String) (c : Conversation) (ms : List Message) :
    (applyMsgs u c ms).otherUserProfile = c.otherUserProfile := by
  induction ms generalizing c with
  | nil => rfl
  | cons x ms ih => rw [applyMsgs_cons, ih, updateConv_otherUserProfile]

lemma applyMsgs_lastMessage (u : String) (c : Conversation) (b : Message)
    (ms : List Message) (h : c.lastMessage = some b) :
    (applyMsgs u c ms).lastMessage = some (ms.foldl maxStep b) := by
  induction ms generalizing c b with
  | nil => simpa using h
  | cons x ms ih =>
    rw [applyMsgs_cons, List.foldl_cons]
    exact ih _ _ (updateConv_lastMessage u x b c h)

lemma applyMsgs_unreadCount (u : String) (c : Conversation) (ms : List Message) :
    (applyMsgs u c ms).unreadCount = c.unreadCount + ms.countP (isUnread u) := by
  induction ms generalizing c with
  | nil => simp [applyMsgs_nil]
  | cons x ms ih =>
    rw [applyMsgs_cons, ih, updateConv_unreadCount, List.countP_cons]
    omega

/-! ### The conversation built from one partition -/

lemma initConv_lastMessage (u : String) (k : Option String) (m : Message) :
    (initConv u k m).lastMessage = some m := rfl

lemma maxStep_self (m : Message) : maxStep m m = m := by
  unfold maxStep
  split <;> rfl

lemma buildConv_otherUserId (u : String) (k : Option String) (l : List Message) :
    (buildConv u k l).otherUserId = k := by
  cases l with
  | nil => rfl
  | cons m ms =>
    show (applyMsgs u (updateConv u m (initConv u k m)) ms).otherUserId = k
    rw [applyMsgs_otherUserId, updateConv_otherUserId]
    rfl

lemma buildConv_otherUserProfile (u : String) (k : Option String) (l : List Message) :
    (buildConv u k l).otherUserProfile = firstProfile u l := by
  cases l with
  | nil => rfl
  | cons m ms =>
    show (applyMsgs u (updateConv u m (initConv u k m)) ms).otherUserProfile = _
    rw [applyMsgs_otherUserProfile, updateConv_otherUserProfile]
    rfl

lemma buildConv_lastMessage (u : String) (k : Option String) (m : Message)
    (ms : List Message) :
    (buildConv u k (m :: ms)).lastMessage = some (ms.foldl maxStep m) := by
  show (applyMsgs u (updateConv u m (initConv u k m)) ms).lastMessage = _
  refine applyMsgs_lastMessage u _ m ms ?_
  rw [updateConv_lastMessage u m m (initConv u k m) (initConv_lastMessage u k m),
    maxStep_self]

lemma buildConv_unreadCount (u : String) (k : Option String) (m : Message)
    (ms : List Message) :
    (buildConv u k (m :: ms)).unreadCount = (m :: ms).countP (isUnread u) := by
  show (applyMsgs u (updateConv u m (initConv u k m)) ms).unreadCount = _
  rw [applyMsgs_unreadCount, updateConv_unreadCount, List.countP_cons]
  show 0 + _ + _ = _
  omega

lemma buildConv_append_singleton (u : String) (k : Option String) (m : Message)
    (l : List Message) (hl : l ≠ []) :
    buildConv u k (l ++ [m]) = updateConv u m (buildConv u k l) := by
  cases l with
  | nil => exact absurd rfl hl
  | cons p ps =>
    show applyMsgs u (updateConv u p (initConv u k p)) (ps ++ [m]) = _
    rw [applyMsgs_append]
    rfl

/-! ### First-occurrence deduplication -/

lemma mem_foldl_insertKey (l : List (Option String)) (acc : List (Option String))
    (a : Option String) :
    a ∈ l.foldl insertKey acc ↔ a ∈ acc ∨ a ∈ l := by
  induction l generalizing acc with
  | nil => simp
  | cons x l ih =>
    rw [List.foldl_cons, ih]
    unfold insertKey
    by_cases hx : x ∈ acc
    · simp only [if_pos hx, List.mem_cons]
      constructor
      · rintro (h | h)
        · exact Or.inl h
        · exact Or.inr (Or.inr h)
      · rintro (h | h | h)
        · exact Or.inl h
        · exact Or.inl (h ▸ hx)
        · exact Or.inr h
    · simp only [if_neg hx, List.mem_append, List.mem_singleton, List.mem_cons]
      tauto

lemma mem_firstDedup (l : List (Option String)) (a : Option String) :
    a ∈ firstDedup l ↔ a ∈ l := by
  unfold firstDedup
  rw [mem_foldl_insertKey]
  simp

lemma nodup_foldl_insertKey (l : List (Option String)) (acc : List (Option String))
    (hacc : acc.Nodup) : (l.foldl insertKey acc).Nodup := by
  induction l generalizing acc with
  | nil => exact hacc
  | cons x l ih =>
    rw [List.foldl_cons]
    refine ih _ ?_
    unfold insertKey
    by_cases hx : x ∈ acc
    · simpa [hx] using hacc
    · simp [hx, List.nodup_append, hacc]

lemma nodup_firstDedup (l : List (Option String)) : (firstDedup l).Nodup :=
  nodup_foldl_insertKey l [] List.nodup_nil

lemma firstDedup_append_singleton (l : List (Option String)) (a : Option String) :
    firstDedup (l ++ [a]) = insertKey (firstDedup l) a := by
  unfold firstDedup
  rw [List.foldl_append]
  rfl

lemma length_firstDedup (l : List (Option String)) :
    (firstDedup l).length = l.toFinset.card := by
  have h2 : (firstDedup l).toFinset = l.toFinset := by
    ext a
    simp [List.mem_toFinset, mem_firstDedup]
  rw [← List.toFinset_card_of_nodup (nodup_firstDedup l), h2]

/-! ### The first-maximum selection -/

lemma le_maxStep_left (b x : Message) : b.created_at ≤ (maxStep b x).created_at := by
  unfold maxStep
  split <;> omega

lemma le_maxStep_right (b x : Message) : x.created_at ≤ (maxStep b x).created_at := by
  unfold maxStep
  split <;> omega

lemma foldMax_mem (ms : List Message) (b : Message) :
    ms.foldl maxStep b ∈ b :: ms := by
  induction ms generalizing b with
  | nil => exact List.mem_singleton.mpr rfl
  | cons x ms ih =>
    rw [List.foldl_cons]
    have h := ih (maxStep b x)
    rw [List.mem_cons] at h
    rcases h with h | h
    · rw [h]
      unfold maxStep
      split
      · exact List.mem_cons_of_mem _ (List.mem_cons_self _ _)
      · exact List.mem_cons_self _ _
    · exact List.mem_cons_of_mem _ (List.mem_cons_of_mem _ h)

lemma foldMax_ge (ms : List Message) (b : Message) :
    ∀ x ∈ b :: ms, x.created_at ≤ (ms.foldl maxStep b).created_at := by
  induction ms generalizing b with
  | nil =>
    intro x hx
    rw [List.mem_singleton] at hx
    rw [hx]
    rfl
  | cons y ms ih =>
    intro x hx
    rw [List.foldl_cons]
    rw [List.mem_cons, List.mem_cons] at hx
    rcases hx with hx | hx | hx
    · calc x.created_at ≤ (maxStep b y).created_at := hx ▸ le_maxStep_left b y
        _ ≤ _ := ih (maxStep b y) _ (List.mem_cons_self _ _)
    · calc x.created_at ≤ (maxStep b y).created_at := hx ▸ le_maxStep_right b y
        _ ≤ _ := ih (maxStep b y) _ (List.mem_cons_self _ _)
    · exact ih (maxStep b y) x (List.mem_cons_of_mem _ hx)

lemma foldMax_split (ms : List Message) (b : Message) :
    ∃ l₁ l₂, b :: ms = l₁ ++ (ms.foldl maxStep b) :: l₂ ∧
      (∀ x ∈ l₁, x.created_at < (ms.foldl maxStep b).created_at) ∧
      (∀ x ∈ l₂, x.created_at ≤ (ms.foldl maxStep b).created_at) := by
  induction ms generalizing b with
  | nil =>
    exact ⟨[], [], rfl, by simp, by simp⟩
  | cons y ms ih =>
    rw [List.foldl_cons]
    by_cases hby : b.created_at < y.created_at
    · have hstep : maxStep b y = y := by unfold maxStep; rw [if_pos hby]
      obtain ⟨l₁, l₂, heq, hlt, hle⟩ := ih (maxStep b y)
      have hyler : y.created_at ≤ (List.foldl maxStep (maxStep b y) ms).created_at := by
        have h1 := foldMax_ge ms (maxStep b y) (maxStep b y) (List.mem_cons_self _ _)
        have h2 := le_maxStep_right b y
        omega
      refine ⟨b :: l₁, l₂, ?_, ?_, hle⟩
      · rw [List.cons_append, ← heq, hstep]
      · intro x hx
        rw [List.mem_cons] at hx
        rcases hx with hx | hx
        · rw [hx]
          omega
        · exact hlt x hx
    · have hstep : maxStep b y = b := by unfold maxStep; rw [if_neg hby]
      obtain ⟨l₁, l₂, heq, hlt, hle⟩ := ih (maxStep b y)
      rw [hstep] at heq hlt hle ⊢
      cases l₁ with
      | nil =>
        have hb : ms.foldl maxStep b = b := by
          have h := congrArg List.head? heq
          simpa using h.symm
        have hms : ms = l₂ := by
          have h := congrArg List.tail heq
          simpa using h
        refine ⟨[], y :: ms, by simp [hb], by simp, ?_⟩
        intro x hx
        rw [List.mem_cons] at hx
        rcases hx with hx | hx
        · rw [hx, hb]
          omega
        · exact hle x (hms ▸ hx)
      | cons c l₁ =>
        rw [List.cons_append] at heq
        have hc1 : c = b := ((List.cons_eq_cons.mp heq).1).symm
        have hc2 : ms = l₁ ++ ms.foldl maxStep b :: l₂ := (List.cons_eq_cons.mp heq).2
        have hblt : b.created_at < (ms.foldl maxStep b).created_at := by
          have h := hlt c (List.mem_cons_self c l₁)
          rw [hc1] at h
          exact h
        refine ⟨b :: y :: l₁, l₂, ?_, ?_, hle⟩
        · rw [List.cons_append, List.cons_append, ← hc2]
        · intro x hx
          rw [List.mem_cons, List.mem_cons] at hx
          rcases hx with hx | hx | hx
          · rw [hx]
            omega
          · rw [hx]
            omega
          · exact hlt x (List.mem_cons_of_mem _ hx)

/-! ### The grouping fold equals the per-partition recomputation -/

lemma keys_convsOf (u : String) (l : List Message) :
    (convsOf u l).map (fun c => c.otherUserId) = firstDedup (l.map (counterparty u)) := by
  unfold convsOf
  rw [List.map_map]
  have h : ∀ k ∈ firstDedup (l.map (counterparty u)),
      ((fun c => c.otherUserId) ∘
        fun k => buildConv u k (l.filter (fun m => counterparty u m == k))) k = id k := by
    intro k _
    simp only [Function.comp_apply, id_eq]
    exact buildConv_otherUserId u k _
  rw [List.map_congr_left h, List.map_id]

lemma any_key_convsOf (u : String) (l : List Message) (k : Option String) :
    (convsOf u l).any (fun c => c.otherUserId == k) = true ↔
      k ∈ firstDedup (l.map (counterparty u)) := by
  rw [List.any_eq_true, ← keys_convsOf]
  constructor
  · rintro ⟨c, hc, hck⟩
    rw [beq_iff_eq] at hck
    exact hck ▸ List.mem_map_of_mem _ hc
  · intro hk
    obtain ⟨c, hc, hck⟩ := List.mem_map.mp hk
    exact ⟨c, hc, by rw [beq_iff_eq]; exact hck⟩

lemma partition_ne_nil (u : String) (l : List Message) (k : Option String)
    (hk : k ∈ firstDedup (l.map (counterparty u))) :
    l.filter (fun x => counterparty u x == k) ≠ [] := by
  rw [mem_firstDedup] at hk
  obtain ⟨x, hx, hxk⟩ := List.mem_map.mp hk
  exact List.ne_nil_of_mem
    (List.mem_filter.mpr ⟨hx, by rw [beq_iff_eq]; exact hxk⟩)

lemma partition_nil (u : String) (l : List Message) (k : Option String)
    (hk : k ∉ firstDedup (l.map (counterparty u))) :
    l.filter (fun x => counterparty u x == k) = [] := by
  rw [mem_firstDedup] at hk
  refine List.filter_eq_nil_iff.mpr ?_
  intro x hx hbeq
  rw [beq_iff_eq] at hbeq
  exact hk (hbeq ▸ List.mem_map_of_mem _ hx)

lemma step_convsOf (u : String) (l : List Message) (m : Message) :
    step u (convsOf u l) m = convsOf u (l ++ [m]) := by
  have hRHS : convsOf u (l ++ [m]) =
      (insertKey (firstDedup (l.map (counterparty u))) (counterparty u m)).map
        (fun k => buildConv u k ((l ++ [m]).filter (fun x => counterparty u x == k))) := by
    unfold convsOf
    rw [List.map_append, List.map_cons, List.map_nil, firstDedup_append_singleton]
  by_cases hk : counterparty u m ∈ firstDedup (l.map (counterparty u))
  · have hany : (convsOf u l).any (fun c => c.otherUserId == counterparty u m) = true :=
      (any_key_convsOf u l _).mpr hk
    rw [hRHS]
    unfold insertKey
    rw [if_pos hk]
    unfold step
    rw [hany]
    simp only [if_true]
    unfold convsOf
    rw [List.map_map]
    refine List.map_congr_left ?_
    intro k hkK
    simp only [Function.comp_apply]
    rw [buildConv_otherUserId]
    by_cases hkm : k = counterparty u m
    · rw [if_pos hkm]
      have hpm : (counterparty u m == k) = true := by
        rw [beq_iff_eq]
        exact hkm.symm
      rw [List.filter_append, List.filter_cons, hpm, List.filter_nil]
      simp only [if_true]
      rw [buildConv_append_singleton u k m _ (partition_ne_nil u l k (hkm ▸ hk))]
    · rw [if_neg hkm]
      have hpm : (counterparty u m == k) = false := by
        rw [beq_eq_false_iff_ne]
        exact fun h => hkm h.symm
      rw [List.filter_append, List.filter_cons, hpm, List.filter_nil]
      simp only [Bool.false_eq_true, if_false, List.append_nil]
  · have hany : (convsOf u l).any (fun c => c.otherUserId == counterparty u m) = false := by
      rw [Bool.eq_false_iff]
      intro h
      exact hk ((any_key_convsOf u l _).mp h)
    rw [hRHS]
    unfold insertKey
    rw [if_neg hk]
    unfold step
    rw [hany]
    simp only [Bool.false_eq_true, if_false]
    rw [List.map_append, List.map_append, List.map_cons, List.map_nil]
    refine congrArg₂ (· ++ ·) ?_ ?_
    · unfold convsOf
      rw [List.map_map]
      refine List.map_congr_left ?_
      intro k hkK
      simp only [Function.comp_apply]
      rw [buildConv_otherUserId]
      have hkm : ¬ k = counterparty u m := fun h => hk (h ▸ hkK)
      rw [if_neg hkm]
      have hpm : (counterparty u m == k) = false := by
        rw [beq_eq_false_iff_ne]
        exact fun h => hkm h.symm
      rw [List.filter_append, List.filter_cons, hpm, List.filter_nil]
      simp only [Bool.false_eq_true, if_false, List.append_nil]
    · have hinit : (initConv u (counterparty u m) m).otherUserId = counterparty u m := rfl
      rw [List.map_cons, List.map_nil]
      simp only [hinit, if_pos]
      have hpm : (counterparty u m == counterparty u m) = true := by
        rw [beq_iff_eq]
      rw [List.filter_append, List.filter_cons, hpm, List.filter_nil,
        partition_nil u l _ hk]
      simp only [if_true, List.nil_append]
      rfl

/-- The grouping loop computes, for every distinct counterparty key in order
of first occurrence, the conversation built from that key's partition. -/
theorem groupMessages_eq_convsOf (u : String) (msgs : List Message) :
    groupMessages u msgs = convsOf u msgs := by
  induction msgs using List.reverseRecOn with
  | nil => rfl
  | append_singleton l m ih =>
    have h1 : groupMessages u (l ++ [m]) = step u (groupMessages u l) m := by
      unfold groupMessages
      rw [List.foldl_append, List.foldl_cons, List.foldl_nil]
    rw [h1, ih, step_convsOf]

lemma mem_groupMessages_iff (u : String) (msgs : List Message) (c : Conversation) :
    c ∈ groupMessages u msgs ↔
      c.otherUserId ∈ firstDedup (msgs.map (counterparty u)) ∧
      c = buildConv u c.otherUserId
            (msgs.filter (fun x => counterparty u x == c.otherUserId)) := by
  rw [groupMessages_eq_convsOf]
  unfold convsOf
  rw [List.mem_map]
  constructor
  · rintro ⟨k, hkK, hck⟩
    have hkey : c.otherUserId = k := by
      rw [← hck]
      exact buildConv_otherUserId u k _
    rw [hkey]
    exact ⟨hkK, hck.symm⟩
  · rintro ⟨hmem, heq⟩
    exact ⟨c.otherUserId, hmem, heq.symm⟩

/-- Everything the grouping loop guarantees about one output conversation,
phrased over its (nonempty) counterparty partition. -/
lemma groupMessages_elim (u : String) (msgs : List Message) (c : Conversation)
    (hc : c ∈ groupMessages u msgs) :
    ∃ p ps, msgs.filter (fun x => counterparty u x == c.otherUserId) = p :: ps ∧
      c.lastMessage = some (ps.foldl maxStep p) ∧
      c.unreadCount = (p :: ps).countP (isUnread u) ∧
      c.otherUserProfile = firstProfile u (p :: ps) := by
  obtain ⟨hmem, heq⟩ := (mem_groupMessages_iff u msgs c).mp hc
  obtain ⟨p, ps, hpart⟩ :=
    List.exists_cons_of_ne_nil (partition_ne_nil u msgs _ hmem)
  refine ⟨p, ps, hpart, ?_, ?_, ?_⟩
  · rw [heq, hpart]
    exact buildConv_lastMessage u _ p ps
  · rw [heq, hpart]
    exact buildConv_unreadCount u _ p ps
  · rw [heq, hpart]
    exact buildConv_otherUserProfile u _ (p :: ps)

/-- C1. For every input message list the grouping loop emits exactly one
conversation per distinct counterparty id occurring in the input — the key
list is duplicate-free, covers exactly the counterparty ids present, and its
length is the number of distinct counterparty ids — and an empty input
produces an empty conversation list through the whole pipeline without
failure. -/
theorem partitioning_completeness :
    ∀ (u : String) (msgs : List Message),
      ((groupMessages u msgs).map (fun c => c.otherUserId)).Nodup ∧
      (∀ k, k ∈ (groupMessages u msgs).map (fun c => c.otherUserId) ↔
        k ∈ msgs.map (counterparty u)) ∧
      (groupMessages u msgs).length = (msgs.map (counterparty u)).toFinset.card ∧
      ∀ profRes, fetchConversations u ⟨some [], none⟩ profRes = some [] := by
  intro u msgs
  have hkeys : (groupMessages u msgs).map (fun c => c.otherUserId) =
      firstDedup (msgs.map (counterparty u)) := by
    rw [groupMessages_eq_convsOf]
    exact keys_convsOf u msgs
  refine ⟨?_, ?_, ?_, ?_⟩
  · rw [hkeys]
    exact nodup_firstDedup _
  · intro k
    rw [hkeys]
    exact mem_firstDedup _ k
  · have h := congrArg List.length hkeys
    rw [List.length_map] at h
    rw [h, length_firstDedup]
  · intro profRes
    rfl

/-- C2. Every output conversation's `lastMessage` belongs to that
conversation's counterparty partition and its timestamp is greater than or
equal to every message's timestamp in the partition. -/
theorem last_message_correctness :
    ∀ (u : String) (msgs : List Message) (c : Conversation),
      c ∈ groupMessages u msgs → ∀ lm, c.lastMessage = some lm →
      lm ∈ msgs.filter (fun x => counterparty u x == c.otherUserId) ∧
      ∀ x ∈ msgs.filter (fun x => counterparty u x == c.otherUserId),
        x.created_at ≤ lm.created_at := by
  intro u msgs c hc lm hlm
  obtain ⟨p, ps, hpart, hlast, _, _⟩ := groupMessages_elim u msgs c hc
  rw [hlm] at hlast
  have hlmeq : lm = ps.foldl maxStep p := Option.some_injective _ hlast
  rw [hpart, hlmeq]
  exact ⟨foldMax_mem ps p, foldMax_ge ps p⟩

/-- C3. Every output conversation's `unreadCount` is exactly the number of
messages in its counterparty partition whose receiver is the current user and
whose `read` flag is false. -/
theorem unread_count_correctness :
    ∀ (u : String) (msgs : List Message) (c : Conversation),
      c ∈ groupMessages u msgs →
      c.unreadCount = (msgs.filter (fun x => counterparty u x == c.otherUserId)).countP
        (fun m => m.receiver_id == some u && !m.read) := by
  intro u msgs c hc
  obtain ⟨p, ps, hpart, _, hcount, _⟩ := groupMessages_elim u msgs c hc
  rw [hpart]
  exact hcount

/-- C10. When several messages of a partition share the maximal timestamp,
`lastMessage` is the earliest of them in input order: the partition splits
around `lastMessage` with strictly smaller timestamps before it and
less-or-equal timestamps after it. -/
theorem last_message_tie_break :
    ∀ (u : String) (msgs : List Message) (c : Conversation),
      c ∈ groupMessages u msgs → ∀ lm, c.lastMessage = some lm →
      ∃ l₁ l₂, msgs.filter (fun x => counterparty u x == c.otherUserId) = l₁ ++ lm :: l₂ ∧
        (∀ x ∈ l₁, x.created_at < lm.created_at) ∧
        (∀ x ∈ l₂, x.created_at ≤ lm.created_at) := by
  intro u msgs c hc lm hlm
  obtain ⟨p, ps, hpart, hlast, _, _⟩ := groupMessages_elim u msgs c hc
  rw [hlm] at hlast
  have hlmeq : lm = ps.foldl maxStep p := Option.some_injective _ hlast
  rw [hpart, hlmeq]
  exact foldMax_split ps p

/-! ### The final sort -/

lemma convCompare_some (a b : Conversation) (ma mb : Message)
    (ha : a.lastMessage = some ma) (hb : b.lastMessage = some mb) :
    convCompare a b = (mb.created_at : Int) - (ma.created_at : Int) := by
  unfold convCompare
  rw [ha, hb]

lemma convCompare_eq_zero_left (a b : Conversation) (h : a.lastMessage = none) :
    convCompare a b = 0 := by
  unfold convCompare
  rw [h]

lemma convCompare_eq_zero_right (a b : Conversation) (h : b.lastMessage = none) :
    convCompare a b = 0 := by
  unfold convCompare
  rw [h]
  cases a.lastMessage <;> rfl

lemma convCompare_total (a b : Conversation) :
    convCompare a b ≤ 0 ∨ convCompare b a ≤ 0 := by
  cases ha : a.lastMessage with
  | none => exact Or.inl (le_of_eq (convCompare_eq_zero_left a b ha))
  | some ma =>
    cases hb : b.lastMessage with
    | none => exact Or.inl (le_of_eq (convCompare_eq_zero_right a b hb))
    | some mb =>
      rw [convCompare_some a b ma mb ha hb, convCompare_some b a mb ma hb ha]
      omega

lemma mem_insertConv (a x : Conversation) (l : List Conversation) :
    x ∈ insertConv a l ↔ x = a ∨ x ∈ l := by
  induction l with
  | nil => simp [insertConv]
  | cons b bs ih =>
    unfold insertConv
    split
    · simp
    · rw [List.mem_cons, ih, List.mem_cons]
      tauto

lemma mem_sortConvs (x : Conversation) (l : List Conversation) :
    x ∈ sortConvs l ↔ x ∈ l := by
  induction l with
  | nil => simp [sortConvs]
  | cons a rest ih =>
    unfold sortConvs
    rw [mem_insertConv, ih, List.mem_cons]

lemma pairwise_insertConv (a : Conversation) (l : List Conversation)
    (ha : ∃ m, a.lastMessage = some m)
    (hl : ∀ x ∈ l, ∃ m, x.lastMessage = some m)
    (hp : l.Pairwise (fun x y => convCompare x y ≤ 0)) :
    (insertConv a l).Pairwise (fun x y => convCompare x y ≤ 0) := by
  induction l with
  | nil => simp [insertConv]
  | cons b bs ih =>
    rw [List.pairwise_cons] at hp
    unfold insertConv
    split
    case isTrue hab =>
      rw [List.pairwise_cons]
      constructor
      · intro x hx
        rw [List.mem_cons] at hx
        rcases hx with hx | hx
        · rw [hx]
          exact hab
        · obtain ⟨ma, hma⟩ := ha
          obtain ⟨mb, hmb⟩ := hl b (List.mem_cons_self b bs)
          obtain ⟨mx, hmx⟩ := hl x (List.mem_cons_of_mem _ hx)
          have h2 := hp.1 x hx
          rw [convCompare_some a b ma mb hma hmb] at hab
          rw [convCompare_some b x mb mx hmb hmx] at h2
          rw [convCompare_some a x ma mx hma hmx]
          omega
      · exact List.pairwise_cons.mpr hp
    case isFalse hab =>
      rw [List.pairwise_cons]
      constructor
      · intro x hx
        rw [mem_insertConv] at hx
        rcases hx with hx | hx
        · rw [hx]
          rcases convCompare_total a b with h | h
          · exact absurd h hab
          · exact h
        · exact hp.1 x hx
      · exact ih (fun x hx => hl x (List.mem_cons_of_mem _ hx)) hp.2

lemma pairwise_sortConvs (l : List Conversation)
    (hl : ∀ x ∈ l, ∃ m, x.lastMessage = some m) :
    (sortConvs l).Pairwise (fun x y => convCompare x y ≤ 0) := by
  induction l with
  | nil => simp [sortConvs]
  | cons a rest ih =>
    unfold sortConvs
    refine pairwise_insertConv a _ (hl a (List.mem_cons_self a rest)) ?_
      (ih fun x hx => hl x (List.mem_cons_of_mem _ hx))
    intro x hx
    exact hl x (List.mem_cons_of_mem _ ((mem_sortConvs x rest).mp hx))

lemma lastMessage_isSome_groupMessages (u : String) (msgs : List Message)
    (c : Conversation) (hc : c ∈ groupMessages u msgs) :
    ∃ m, c.lastMessage = some m := by
  obtain ⟨p, ps, _, hlast, _, _⟩ := groupMessages_elim u msgs c hc
  exact ⟨_, hlast⟩

lemma resolveProfile_lastMessage (pd : Option (List UserProfile)) (c : Conversation) :
    (resolveProfile pd c).lastMessage = c.lastMessage := by
  unfold resolveProfile
  split <;> rfl

lemma fetchConversations_none_error (u : String) (data : Option (List Message))
    (profRes : StoreResult (List UserProfile)) :
    fetchConversations u ⟨data, none⟩ profRes =
      some (sortConvs (
        if 0 < ((groupMessages u (data.getD [])).filter
            (fun c => c.otherUserProfile.isNone)).length
        then (groupMessages u (data.getD [])).map (resolveProfile profRes.data)
        else groupMessages u (data.getD []))) := rfl

/-- C4. Whenever `fetchConversations` commits a conversation list, that list
is non-increasing in `lastMessage.created_at`; and the sort comparator
returns 0 (equal) for any pair in which either conversation lacks a
`lastMessage`, so such summaries cannot make the comparison fail. -/
theorem conversation_sort_order :
    (∀ (u : String) (msgRes : StoreResult (List Message))
        (profRes : StoreResult (List UserProfile)) (l : List Conversation),
      fetchConversations u msgRes profRes = some l →
      l.Pairwise (fun a b => ∀ ma mb, a.lastMessage = some ma →
        b.lastMessage = some mb → mb.created_at ≤ ma.created_at)) ∧
    (∀ a b : Conversation, a.lastMessage = none ∨ b.lastMessage = none →
      convCompare a b = 0) := by
  constructor
  · intro u msgRes profRes l hl
    obtain ⟨data, error⟩ := msgRes
    cases error with
    | some e => exact Option.noConfusion hl
    | none =>
      rw [fetchConversations_none_error] at hl
      have hleq := Option.some_injective _ hl
      subst hleq
      have hsome : ∀ x ∈ (
          if 0 < ((groupMessages u (data.getD [])).filter
              (fun c => c.otherUserProfile.isNone)).length
          then (groupMessages u (data.getD [])).map (resolveProfile profRes.data)
          else groupMessages u (data.getD [])), ∃ m, x.lastMessage = some m := by
        intro x hx
        split at hx
        · obtain ⟨c, hc, hcx⟩ := List.mem_map.mp hx
          obtain ⟨m, hm⟩ := lastMessage_isSome_groupMessages u _ c hc
          exact ⟨m, by rw [← hcx, resolveProfile_lastMessage, hm]⟩
        · exact lastMessage_isSome_groupMessages u _ x hx
      refine (pairwise_sortConvs _ hsome).imp ?_
      intro a b hab ma mb hma hmb
      rw [convCompare_some a b ma mb hma hmb] at hab
      omega
  · intro a b h
    rcases h with h | h
    · exact convCompare_eq_zero_left a b h
    · exact convCompare_eq_zero_right a b h

/-- Witness for C4 at spec scenario 2 (counterparty A at t=20, B at t=30,
both sent by the current user): the committed list is [B, A] and it is
pairwise non-increasing; the comparator returns 0 on last-message-free
summaries. -/
theorem conversation_sort_order_witness :
    List.Pairwise (fun a b => ∀ ma mb, a.lastMessage = some ma →
        b.lastMessage = some mb → mb.created_at ≤ ma.created_at)
      [(⟨some "B", some ⟨"B"⟩,
          some ⟨"b1", some "u", some "B", "cb", false, 30, some ⟨"u"⟩⟩, 0⟩ : Conversation),
       ⟨some "A", some ⟨"A"⟩,
          some ⟨"a1", some "u", some "A", "ca", false, 20, some ⟨"u"⟩⟩, 0⟩] ∧
    convCompare ⟨some "Z", none, none, 0⟩ ⟨some "W", none, none, 0⟩ = 0 :=
  ⟨conversation_sort_order.1 "u"
      ⟨some [⟨"b1", some "u", some "B", "cb", false, 30, some ⟨"u"⟩⟩,
             ⟨"a1", some "u", some "A", "ca", false, 20, some ⟨"u"⟩⟩], none⟩
      ⟨some [⟨"A"⟩, ⟨"B"⟩], none⟩ _ (by decide),
   conversation_sort_order.2 _ _ (Or.inl rfl)⟩

/-- Witness for C2 at spec scenario 1 (A→current unread at t=10,
current→A at t=5): the selected last message belongs to A's partition. -/
theorem last_message_correctness_witness :
    (⟨"m1", some "a", some "u", "hi", false, 10, some ⟨"a"⟩⟩ : Message) ∈
      List.filter (fun x => counterparty "u" x == some "a")
        [(⟨"m1", some "a", some "u", "hi", false, 10, some ⟨"a"⟩⟩ : Message),
         ⟨"m2", some "u", some "a", "yo", false, 5, some ⟨"u"⟩⟩] :=
  (last_message_correctness "u"
    [⟨"m1", some "a", some "u", "hi", false, 10, some ⟨"a"⟩⟩,
     ⟨"m2", some "u", some "a", "yo", false, 5, some ⟨"u"⟩⟩]
    ⟨some "a", some ⟨"a"⟩, some ⟨"m1", some "a", some "u", "hi", false, 10, some ⟨"a"⟩⟩, 1⟩
    (by decide) _ rfl).1

/-- Witness for C3 at spec scenario 3 (three messages from A, two unread and
one read): the unread count is 2, the number of unread received messages in
the partition. -/
theorem unread_count_correctness_witness :
    (⟨some "a", some ⟨"a"⟩,
        some ⟨"n1", some "a", some "u", "x", false, 30, some ⟨"a"⟩⟩, 2⟩ :
      Conversation).unreadCount =
      (List.filter (fun x => counterparty "u" x == some "a")
        [(⟨"n1", some "a", some "u", "x", false, 30, some ⟨"a"⟩⟩ : Message),
         ⟨"n2", some "a", some "u", "y", false, 20, some ⟨"a"⟩⟩,
         ⟨"n3", some "a", some "u", "z", true, 10, some ⟨"a"⟩⟩]).countP
        (fun m => m.receiver_id == some "u" && !m.read) :=
  unread_count_correctness "u"
    [⟨"n1", some "a", some "u", "x", false, 30, some ⟨"a"⟩⟩,
     ⟨"n2", some "a", some "u", "y", false, 20, some ⟨"a"⟩⟩,
     ⟨"n3", some "a", some "u", "z", true, 10, some ⟨"a"⟩⟩]
    ⟨some "a", some ⟨"a"⟩,
      some ⟨"n1", some "a", some "u", "x", false, 30, some ⟨"a"⟩⟩, 2⟩
    (by decide)

/-- Witness for C10 on a partition with two messages tied at t=10: the first
in input order is the selected last message. -/
theorem last_message_tie_break_witness :
    ∃ l₁ l₂, List.filter (fun x => counterparty "u" x == some "a")
        [(⟨"t1", some "a", some "u", "p", true, 10, some ⟨"a"⟩⟩ : Message),
         ⟨"t2", some "a", some "u", "q", true, 10, some ⟨"a"⟩⟩] =
      l₁ ++ (⟨"t1", some "a", some "u", "p", true, 10, some ⟨"a"⟩⟩ : Message) :: l₂ ∧
      (∀ x ∈ l₁, x.created_at < 10) ∧ (∀ x ∈ l₂, x.created_at ≤ 10) :=
  last_message_tie_break "u"
    [⟨"t1", some "a", some "u", "p", true, 10, some ⟨"a"⟩⟩,
     ⟨"t2", some "a", some "u", "q", true, 10, some ⟨"a"⟩⟩]
    ⟨some "a", some ⟨"a"⟩,
      some ⟨"t1", some "a", some "u", "p", true, 10, some ⟨"a"⟩⟩, 0⟩
    (by decide) _ rfl

/-! ### C5: the batch profile lookup key set -/

lemma groupMessages_key_inj (u : String) (msgs : List Message)
    (c c' : Conversation) (hc : c ∈ groupMessages u msgs)
    (hc' : c' ∈ groupMessages u msgs) (hk : c.otherUserId = c'.otherUserId) :
    c = c' := by
  obtain ⟨_, heq⟩ := (mem_groupMessages_iff u msgs c).mp hc
  obtain ⟨_, heq'⟩ := (mem_groupMessages_iff u msgs c').mp hc'
  rw [heq, heq', hk]

/-- Counterexample to C5: with input [current→A at t=10, A→current at t=5
carrying A's profile] (the query's descending order), counterparty A sent a
message whose `sender_profile` is attached, yet A's id is in the batch lookup
key set, because only the partition's first message (here sent by the current
user) is consulted for the profile. -/
theorem batch_lookup_set_cex :
    batchLookupIds "u"
      [⟨"x1", some "u", some "a", "hey", false, 10, some ⟨"u"⟩⟩,
       ⟨"y1", some "a", some "u", "ho", true, 5, some ⟨"a"⟩⟩] = [some "a"] ∧
    (⟨"y1", some "a", some "u", "ho", true, 5, some ⟨"a"⟩⟩ : Message).sender_id =
      some "a" ∧
    (⟨"y1", some "a", some "u", "ho", true, 5, some ⟨"a"⟩⟩ : Message).sender_profile =
      some ⟨"a"⟩ := by
  decide

/-- C5 as amended: a conversation's captured profile comes only from the
first message of its counterparty partition in input order (absent whenever
the current user sent that first message or it carried no profile), and the
batch lookup key set consists of exactly the counterparty ids whose captured
profile is absent. -/
theorem batch_lookup_set_amended :
    ∀ (u : String) (msgs : List Message) (c : Conversation),
      c ∈ groupMessages u msgs →
      c.otherUserProfile =
        firstProfile u (msgs.filter (fun x => counterparty u x == c.otherUserId)) ∧
      (c.otherUserId ∈ batchLookupIds u msgs ↔ c.otherUserProfile = none) := by
  intro u msgs c hc
  obtain ⟨p, ps, hpart, _, _, hprof⟩ := groupMessages_elim u msgs c hc
  constructor
  · rw [hpart]
    exact hprof
  · unfold batchLookupIds
    constructor
    · intro hmem
      obtain ⟨c', hc', hkey⟩ := List.mem_map.mp hmem
      rw [List.mem_filter] at hc'
      have hcc : c' = c := groupMessages_key_inj u msgs c' c hc'.1 hc hkey
      rw [← hcc]
      exact Option.isNone_iff_eq_none.mp hc'.2
    · intro hnone
      refine List.mem_map_of_mem _ (List.mem_filter.mpr ⟨hc, ?_⟩)
      rw [hnone]
      rfl

/-- Witness for the amended C5 at the counterexample input: the conversation
for A captured no profile (its partition's first message was sent by the
current user), so A's id is in the lookup key set. -/
theorem batch_lookup_set_amended_witness :
    (⟨some "a", none,
        some ⟨"x1", some "u", some "a", "hey", false, 10, some ⟨"u"⟩⟩, 0⟩ :
      Conversation).otherUserProfile =
      firstProfile "u" (List.filter (fun x => counterparty "u" x == some "a")
        [(⟨"x1", some "u", some "a", "hey", false, 10, some ⟨"u"⟩⟩ : Message),
         ⟨"y1", some "a", some "u", "ho", true, 5, some ⟨"a"⟩⟩]) ∧
    (some "a" ∈ batchLookupIds "u"
        [⟨"x1", some "u", some "a", "hey", false, 10, some ⟨"u"⟩⟩,
         ⟨"y1", some "a", some "u", "ho", true, 5, some ⟨"a"⟩⟩] ↔
      (⟨some "a", none,
          some ⟨"x1", some "u", some "a", "hey", false, 10, some ⟨"u"⟩⟩, 0⟩ :
        Conversation).otherUserProfile = none) :=
  batch_lookup_set_amended "u"
    [⟨"x1", some "u", some "a", "hey", false, 10, some ⟨"u"⟩⟩,
     ⟨"y1", some "a", some "u", "ho", true, 5, some ⟨"a"⟩⟩]
    ⟨some "a", none,
      some ⟨"x1", some "u", some "a", "hey", false, 10, some ⟨"u"⟩⟩, 0⟩
    (by decide)

/-! ### C6: store failure during the batch lookup -/

/-- Counterexample to C6: with one message current→A (so a lookup for A is
issued) and a failing profile response, `fetchConversations` still commits
the aggregation — the conversation list is updated with A's profile left
unresolved, instead of being discarded. -/
theorem batch_failure_cex :
    batchLookupIds "u" [⟨"x1", some "u", some "a", "hey", false, 10, some ⟨"u"⟩⟩]
      ≠ [] ∧
    fetchConversations "u"
        ⟨some [⟨"x1", some "u", some "a", "hey", false, 10, some ⟨"u"⟩⟩], none⟩
        ⟨none, some "network error"⟩ =
      some [⟨some "a", none,
        some ⟨"x1", some "u", some "a", "hey", false, 10, some ⟨"u"⟩⟩, 0⟩] := by
  decide

/-- C6 as amended: a failure of the initial messages query propagates as a
single aggregate failure and the previously held list is kept (no update);
but the batch profile lookup's error field is never inspected — the result
depends only on its `data`, and on a failing lookup the aggregation is still
committed (with the affected profiles unresolved). -/
theorem store_failure_handling_amended :
    (∀ (u : String) (d : Option (List Message)) (e : String)
        (profRes : StoreResult (List UserProfile)),
      fetchConversations u ⟨d, some e⟩ profRes = none) ∧
    (∀ (u : String) (msgRes : StoreResult (List Message))
        (profRes : StoreResult (List UserProfile)),
      fetchConversations u msgRes profRes =
        fetchConversations u msgRes ⟨profRes.data, none⟩) ∧
    (∀ (u : String) (ms : List Message) (e : String),
      ∃ l, fetchConversations u ⟨some ms, none⟩ ⟨none, some e⟩ = some l) := by
  refine ⟨fun u d e profRes => rfl, fun u msgRes profRes => ?_, fun u ms e => ⟨_, rfl⟩⟩
  obtain ⟨d, err⟩ := msgRes
  cases err <;> rfl

/-! ### C7: messages missing both endpoint ids -/

/-- Counterexample to C7: a message with both ids missing is not rejected —
it produces a conversation grouped under the absent counterparty key. -/
theorem malformed_rejection_cex :
    groupMessages "u" [⟨"bad", none, none, "??", false, 7, none⟩] =
      [⟨none, none, some ⟨"bad", none, none, "??", false, 7, none⟩, 0⟩] ∧
    (groupMessages "u" [⟨"bad", none, none, "??", false, 7, none⟩]).length ≠ 0 := by
  decide

/-- C7 as amended: a message missing both sender and receiver ids is not
rejected by the grouping loop; it contributes a conversation whose
counterparty key is the absent (null) id. -/
theorem malformed_rejection_amended :
    ∀ (u : String) (msgs : List Message) (m : Message), m ∈ msgs →
      m.sender_id = none → m.receiver_id = none →
      ∃ c ∈ groupMessages u msgs, c.otherUserId = none := by
  intro u msgs m hm hs _
  have hk : counterparty u m = none := by
    unfold counterparty
    rw [hs]
    rfl
  have hmem : (none : Option String) ∈ (groupMessages u msgs).map
      (fun c => c.otherUserId) := by
    rw [groupMessages_eq_convsOf, keys_convsOf, mem_firstDedup]
    exact hk ▸ List.mem_map_of_mem _ hm
  obtain ⟨c, hc, hkey⟩ := List.mem_map.mp hmem
  exact ⟨c, hc, hkey⟩

/-- Witness for the amended C7 at the concrete malformed message. -/
theorem malformed_rejection_amended_witness :
    ∃ c ∈ groupMessages "u" [⟨"bad", none, none, "??", false, 7, none⟩],
      c.otherUserId = none :=
  malformed_rejection_amended "u" [⟨"bad", none, none, "??", false, 7, none⟩]
    ⟨"bad", none, none, "??", false, 7, none⟩ (List.mem_singleton.mpr rfl) rfl rfl

/-! ### C8: determinism of the aggregation -/

/-- C8. The whole fetch-and-aggregate pipeline is a pure function of the
current user id, the messages response and the batch-lookup response:
re-running it on the same inputs yields the identical conversation sequence,
element for element. -/
theorem aggregation_deterministic :
    ∀ (u : String) (msgRes : StoreResult (List Message))
      (profRes : StoreResult (List UserProfile)),
      fetchConversations u msgRes profRes = fetchConversations u msgRes profRes ∧
      groupMessages u (msgRes.data.getD []) = groupMessages u (msgRes.data.getD []) :=
  fun _ _ _ => ⟨rfl, rfl⟩

/-! ### C9: meeting status writes -/

/-- C9. The only meeting-status mutation in the repository writes either
`confirmed` or `cancelled` (its parameter type admits nothing else), the UI
offers those actions only for meetings currently `pending`, and no write can
produce `completed`. -/
theorem meeting_status_never_completed :
    (∀ (s : MeetingStatus) (a : UpdatableStatus), a ∈ offeredStatusActions s →
      s = MeetingStatus.pending ∧
      (updateMeetingStatusWrite a = MeetingStatus.confirmed ∨
        updateMeetingStatusWrite a = MeetingStatus.cancelled)) ∧
    (∀ a : UpdatableStatus, updateMeetingStatusWrite a ≠ MeetingStatus.completed) := by
  constructor
  · intro s a ha
    unfold offeredStatusActions at ha
    split at ha
    case isTrue h =>
      refine ⟨h, ?_⟩
      cases a
      · exact Or.inl rfl
      · exact Or.inr rfl
    case isFalse h => exact absurd ha (List.not_mem_nil a)
  · intro a
    cases a
    · exact fun h => MeetingStatus.noConfusion h
    · exact fun h => MeetingStatus.noConfusion h

/-- Witness for C9: the confirm action offered on a pending meeting writes
`confirmed`, one of the two permitted statuses. -/
theorem meeting_status_never_completed_witness :
    MeetingStatus.pending = MeetingStatus.pending ∧
    (updateMeetingStatusWrite UpdatableStatus.confirmed = MeetingStatus.confirmed ∨
      updateMeetingStatusWrite UpdatableStatus.confirmed = MeetingStatus.cancelled) :=
  meeting_status_never_completed.1 MeetingStatus.pending UpdatableStatus.confirmed
    (by decide)

end BniDiscovery
